import Mathlib

/-!
Verification development for the EmbeddedSystems repository (Arduino robot).

Two subsystems are embedded shallowly:

* `RobotR` — the sensor-equipped variant `src/Arduino/Robot_r.ino`:
  the angle normalizer `norm180`, the interruptible delay `smartDelay`,
  and the closed-loop rotation controller `Rotate`.  Angles are rationals
  (the C code uses `float`; the claims under study concern control flow
  and comparisons, which agree on ℚ).  Time is idealized: `delay(2)`
  advances the clock by exactly 2 ms and all other work is instantaneous,
  so `millis() - t0` equals the explicit elapsed-time counter.  The
  environment supplies the heading returned by each `mpu.update()` /
  `getAngleZ()` pair as a stream indexed by sample number, and the
  interrupt-set `stopReq` flag as an optional time at which it becomes
  (and stays) set.  Actuation is observed through a log of `Motor`
  commands (newest first) and the motor-enable line.

* `Prog` — the command-execution engine `src/Arduino/Arduino.ino`:
  command table, parser, command objects, `ProgramRunner` and
  `ProgramController`, over `List Char` program lines.
-/

namespace RobotR

/-- Motion commands written to the shift register (`const int` block). -/
def Stop : ℤ := 0

/-- `const int RotateRight = 101`. -/
def RotateRight : ℤ := 101

/-- `const int RotateLeft = 154`. -/
def RotateLeft : ℤ := 154

/-- `float K_TURN_R = 1.02`. -/
def K_TURN_R : ℚ := 1.02

/-- `float K_TURN_L = 1.02`. -/
def K_TURN_L : ℚ := 1.02

/-- `const int ROT_FAST_PWM = 200`. -/
def ROT_FAST_PWM : ℤ := 200

/-- `const int ROT_MID_PWM = 185`. -/
def ROT_MID_PWM : ℤ := 185

/-- `const int ROT_FINE_PWM = 180`. -/
def ROT_FINE_PWM : ℤ := 180

/-- `const int MIN_ROT_PWM = 175`. -/
def MIN_ROT_PWM : ℤ := 175

/-- `const float ANGLE_TOL = 2.0`. -/
def ANGLE_TOL : ℚ := 2

/-- `const int STABLE_CNT = 10`. -/
def STABLE_CNT : ℕ := 10

/-- Local constant of `Rotate`: `MIN_PWM = max(MIN_ROT_PWM, 160)`. -/
def MIN_PWM : ℤ := max MIN_ROT_PWM 160

/-- Local constant of `Rotate`: `FAST_PWM = ROT_FAST_PWM`. -/
def FAST_PWM : ℤ := ROT_FAST_PWM

/-- Local constant of `Rotate`: `MID_PWM = ROT_MID_PWM`. -/
def MID_PWM : ℤ := ROT_MID_PWM

/-- Local constant of `Rotate`: `FINE_PWM = max(ROT_FINE_PWM, MIN_PWM)`. -/
def FINE_PWM : ℤ := max ROT_FINE_PWM MIN_PWM

/-- Local constant of `Rotate`: `OVERSHOOT_DEG = 6.0`. -/
def OVERSHOOT_DEG : ℚ := 6

/-- Local constant of `Rotate`: `TIMEOUT_MS = 9000`. -/
def TIMEOUT_MS : ℕ := 9000

/-- First loop of `norm180`: `while (a > 180) a -= 360;`. -/
def wrapDown (a : ℚ) : ℚ :=
  if h : 180 < a then wrapDown (a - 360) else a
termination_by (⌈a⌉).toNat
decreasing_by
  have h1 : (180 : ℤ) < ⌈a⌉ := Int.lt_ceil.mpr (by exact_mod_cast h)
  have h2 : ⌈a - (360 : ℚ)⌉ = ⌈a⌉ - 360 := by
    rw [show (360 : ℚ) = ((360 : ℤ) : ℚ) by norm_num, Int.ceil_sub_int]
  omega

/-- Second loop of `norm180`: `while (a < -180) a += 360;`. -/
def wrapUp (a : ℚ) : ℚ :=
  if h : a < -180 then wrapUp (a + 360) else a
termination_by (⌈-a⌉).toNat
decreasing_by
  have h1 : (180 : ℤ) < ⌈-a⌉ := Int.lt_ceil.mpr (by push_cast; linarith)
  have h2 : ⌈-(a + 360)⌉ = ⌈-a⌉ - 360 := by
    rw [show -(a + 360) = -a - ((360 : ℤ) : ℚ) by push_cast; ring, Int.ceil_sub_int]
  omega

/-- `float norm180(float a)`: wrap an angle by repeatedly adding/subtracting 360. -/
def norm180 (a : ℚ) : ℚ := wrapUp (wrapDown a)

/-- Environment of one `Rotate`/`smartDelay` invocation: the heading sample
stream (value returned by `mpu.getAngleZ()` after the i-th `mpu.update()`)
and the time (ms since invocation entry) at which the interrupt sets the
`stopReq` flag (`none` = never; once set, the flag stays set for the whole
invocation, since it is only cleared in `waitForStartAfterStop`). -/
structure Env where
  hdg : ℕ → ℚ
  stopTime : Option ℕ

/-- Value of the `stopReq` flag at time `t`. -/
def Env.stopAt (e : Env) (t : ℕ) : Bool :=
  match e.stopTime with
  | none => false
  | some s => decide (s ≤ t)

/-- Machine state threaded through the controller: idealized `millis()`
clock (ms since invocation entry), next heading-sample index, the log of
`Motor` commands issued so far (newest first), and the motor-enable line. -/
structure MState where
  now : ℕ
  sIdx : ℕ
  log : List (ℤ × ℤ)
  en : Bool
deriving DecidableEq

/-- `void Motor(int Dir, int Speed)`: with `Speed <= 0` or `Dir == Stop` it
writes zero PWM, shifts out the `Stop` pattern and disables the motors;
otherwise it enables the motors and shifts out `(Dir, Speed)`. -/
def Motor (d s : ℤ) (st : MState) : MState :=
  if s ≤ 0 ∨ d = Stop then
    { st with log := (Stop, 0) :: st.log, en := false }
  else
    { st with log := (d, s) :: st.log, en := true }

/-- `inline bool shouldStopNow()`: if `stopReq` is set, command a full stop
and disable the enable line, and report `true`. -/
def shouldStopNow (e : Env) (st : MState) : Bool × MState :=
  if e.stopAt st.now then (true, Motor Stop 0 st) else (false, st)

/-- Loop body of `smartDelay`: `while (millis() - t0 < ms) { if
(shouldStopNow()) return false; delay(2); } return true;` with
`elapsed = millis() - t0`. -/
def smartDelayAux (e : Env) (ms elapsed : ℕ) (st : MState) : Bool × MState :=
  if h : elapsed < ms then
    match shouldStopNow e st with
    | (true, st1) => (false, st1)
    | (false, st1) => smartDelayAux e ms (elapsed + 2) { st1 with now := st1.now + 2 }
  else (true, st)
termination_by ms - elapsed
decreasing_by omega

/-- `bool smartDelay(unsigned long ms)`. -/
def smartDelay (e : Env) (ms : ℕ) (st : MState) : Bool × MState :=
  smartDelayAux e ms 0 st

/-- Per-invocation constants of `Rotate`: the computed target angle, the
two actuator commands `cmdMain`/`cmdOpp`, and the sign of the initial
error `err0`. -/
structure RotCfg where
  target : ℚ
  cmdMain : ℤ
  cmdOpp : ℤ
  sign0 : ℤ
deriving DecidableEq

/-- The three ways the `Rotate` control loop can return: a stop request
(`return false`), the 9000 ms timeout (`return false`), or convergence
(`return true`).  These are the only return statements in the source. -/
inductive RotExit where
  | stopped
  | timeout
  | converged
deriving DecidableEq

/-- The boolean `Rotate` actually returns for each exit. -/
def RotExit.toB : RotExit → Bool
  | .converged => true
  | _ => false

/-- Mutable loop state of `Rotate`: machine state, `stableCnt`, `overshot`. -/
structure LoopSt where
  st : MState
  stableCnt : ℕ
  overshot : Bool
deriving DecidableEq

/-- `cmd = overshot ? cmdOpp : cmdMain` — the correction direction used
by the NEAR/MID/FAR zones. -/
def pickCmd (ov : Bool) (c : RotCfg) : ℤ :=
  if ov then c.cmdOpp else c.cmdMain

/-- `int cmd2 = (err2 >= 0) ? cmdMain : cmdOpp; if (overshot) cmd2 =
cmdOpp;` — the direction of one MICRO-zone pulse. -/
def pickCmd2 (ov : Bool) (err2 : ℚ) (c : RotCfg) : ℤ :=
  if ov then c.cmdOpp else if 0 ≤ err2 then c.cmdMain else c.cmdOpp

/-- The MICRO zone `for (int i = 0; i < MICRO_STEPS; i++)` loop.  Returns
`false` (abort the whole invocation: a stop request was seen, mirroring
the `return false` statements) or `true` (the loop broke out or ran all
its steps), with the final machine state. -/
def microLoop (e : Env) (c : RotCfg) (ov : Bool) : ℕ → MState → Bool × MState
  | 0, st => (true, st)
  | i + 1, st =>
    let ps := shouldStopNow e st
    if ps.1 then (false, ps.2)
    else
      let err2 := norm180 (c.target - e.hdg st.sIdx)
      let st2 := { st with sIdx := st.sIdx + 1 }
      if |err2| ≤ ANGLE_TOL then (true, st2)
      else
        let cmd2 := pickCmd2 ov err2 c
        let p1 := smartDelay e 8 (Motor cmd2 FINE_PWM st2)
        if p1.1 = false then (false, p1.2)
        else
          let p2 := smartDelay e 20 (Motor cmd2 MIN_PWM p1.2)
          if p2.1 = false then (false, p2.2)
          else
            let p3 := smartDelay e 25 (Motor Stop 0 p2.2)
            if p3.1 = false then (false, p3.2)
            else
              let errAfter := norm180 (c.target - e.hdg p3.2.sIdx)
              let st9 := { p3.2 with sIdx := p3.2.sIdx + 1 }
              if decide (0 ≤ errAfter) ≠ decide (0 ≤ err2) then (true, st9)
              else microLoop e c ov i st9

/-- One iteration of the `while (true)` control loop of `Rotate`:
stop check, heading sample, timeout check, tolerance/stability check,
overshoot latch, and the zoned actuation (micro / near / mid / far).
`.inl` is an exit from `Rotate`, `.inr` continues the loop.  (When the
stop check fires, `shouldStopNow` has already issued the stop command.) -/
def rotateStep (e : Env) (c : RotCfg) (ls : LoopSt) : (RotExit × MState) ⊕ LoopSt :=
  let ps := shouldStopNow e ls.st
  if ps.1 then .inl (.stopped, ps.2)
  else
    let z := e.hdg ls.st.sIdx
    let st2 := { ls.st with sIdx := ls.st.sIdx + 1 }
    let err := norm180 (c.target - z)
    let ae := |err|
    let sign : ℤ := if 0 ≤ err then 1 else -1
    if TIMEOUT_MS < st2.now then .inl (.timeout, Motor Stop 0 st2)
    else if ae ≤ ANGLE_TOL then
      let n := ls.stableCnt + 1
      let st3 := Motor Stop 0 st2
      if STABLE_CNT ≤ n then .inl (.converged, st3)
      else
        let p := smartDelay e 25 st3
        if p.1 = false then .inl (.stopped, p.2)
        else .inr ⟨p.2, n, ls.overshot⟩
    else
      let ov := if ls.overshot = false ∧ sign ≠ c.sign0 ∧ OVERSHOOT_DEG < ae then true
                else ls.overshot
      let cmd := pickCmd ov c
      if ae < 10 then
        if ae < 6 then
          let p := microLoop e c ov 3 st2
          if p.1 = false then .inl (.stopped, p.2)
          else .inr ⟨p.2, 0, ov⟩
        else
          let p1 := smartDelay e 12 (Motor cmd FINE_PWM st2)
          if p1.1 = false then .inl (.stopped, p1.2)
          else
            let p2 := smartDelay e 40 (Motor cmd MIN_PWM p1.2)
            if p2.1 = false then .inl (.stopped, p2.2)
            else
              let p3 := smartDelay e 35 (Motor Stop 0 p2.2)
              if p3.1 = false then .inl (.stopped, p3.2)
              else .inr ⟨p3.2, 0, ov⟩
      else if ae < 25 then
        let p := smartDelay e 12 (Motor cmd MID_PWM st2)
        if p.1 = false then .inl (.stopped, p.2)
        else .inr ⟨p.2, 0, ov⟩
      else
        let p := smartDelay e 10 (Motor cmd FAST_PWM st2)
        if p.1 = false then .inl (.stopped, p.2)
        else .inr ⟨p.2, 0, ov⟩

/-- Iterate `rotateStep` until it exits; `fuel` bounds the number of
iterations (`none` = fuel exhausted before an exit was reached). -/
def rotateLoop (e : Env) (c : RotCfg) : ℕ → LoopSt → Option (RotExit × MState)
  | 0, _ => none
  | f + 1, ls =>
    match rotateStep e c ls with
    | .inl r => some r
    | .inr ls1 => rotateLoop e c f ls1

/-- `bool Rotate(float phi)`: entry stop check, initial heading sample,
target computation, startup kick, initial error sign, then the control
loop.  Returns the exit kind (`RotExit.toB` gives the returned boolean)
together with the final machine state. -/
def Rotate (phi : ℚ) (e : Env) (fuel : ℕ) : Option (RotExit × MState) :=
  let st0 : MState := { now := 0, sIdx := 0, log := [], en := false }
  let ps := shouldStopNow e st0
  if ps.1 then some (.stopped, ps.2)
  else
    let startAngle := e.hdg st0.sIdx
    let st2 := { st0 with sIdx := st0.sIdx + 1 }
    let k := if 0 < phi then K_TURN_R else K_TURN_L
    let target := startAngle - phi * k
    let cmdMain := if 0 < phi then RotateRight else RotateLeft
    let cmdOpp := if 0 < phi then RotateLeft else RotateRight
    let p1 := smartDelay e 60 (Motor cmdMain FAST_PWM st2)
    if p1.1 = false then some (.stopped, Motor Stop 0 p1.2)
    else
      let p2 := smartDelay e 50 (Motor Stop 0 p1.2)
      if p2.1 = false then some (.stopped, p2.2)
      else
        let err0 := norm180 (target - e.hdg p2.2.sIdx)
        let st7 := { p2.2 with sIdx := p2.2.sIdx + 1 }
        let sign0 : ℤ := if 0 ≤ err0 then 1 else -1
        rotateLoop e ⟨target, cmdMain, cmdOpp, sign0⟩ fuel ⟨st7, 0, false⟩

/-- Machine state carried by either outcome of `rotateStep` (observer). -/
def stepSt : (RotExit × MState) ⊕ LoopSt → MState
  | .inl (_, st) => st
  | .inr ls => ls.st

end RobotR

namespace Prog

/-- Robot actuation actions, as issued through the `Robot` facade. -/
inductive RAct where
  | forward
  | backward
  | rotLeft
  | rotRight
  | stop
  | paintOn
  | paintOff
deriving DecidableEq

/-- `enum class CommandId`. -/
inductive CmdId where
  | forward
  | backward
  | left90
  | right90
  | paintOn
  | paintOff
  | wait
deriving DecidableEq

/-- `struct CommandSpec { const char* token; CommandId id; bool hasArgument; }`. -/
structure CmdSpec where
  token : List Char
  id : CmdId
  hasArgument : Bool

/-- `static const CommandSpec COMMAND_TABLE[]`, in source order (tokens
"F", "B", "L", "R", "paintON", "paintOFF", "WAIT" as character lists). -/
def COMMAND_TABLE : List CmdSpec :=
  [ ⟨['F'], .forward, true⟩,
    ⟨['B'], .backward, true⟩,
    ⟨['L'], .left90, false⟩,
    ⟨['R'], .right90, false⟩,
    ⟨['p', 'a', 'i', 'n', 't', 'O', 'N'], .paintOn, false⟩,
    ⟨['p', 'a', 'i', 'n', 't', 'O', 'F', 'F'], .paintOff, false⟩,
    ⟨['W', 'A', 'I', 'T'], .wait, true⟩ ]

/-- A command object (`ICommand` instance).  Timed commands (`F`, `B`,
`L`, `R`, `WAIT`) use `duration`/`startTime`/`active` (the `TimedCommand`
base fields); the paint commands use `done`. -/
structure CmdObj where
  id : CmdId
  duration : ℕ
  startTime : ℕ
  active : Bool
  done : Bool
deriving DecidableEq

/-- Model of the C cast `(unsigned long)value` for the (nonnegative)
values produced by the argument parser: truncation toward zero, with
negative inputs clamped to zero. -/
def ulongOf (v : ℚ) : ℕ := (⌊v⌋).toNat

/-- `CommandFactory::create`: `Left90`/`Right90` get the calibrated
`ROTATE_90_MS = 420`; the argument-taking commands get the parsed value. -/
def factoryCreate (id : CmdId) (value : ℚ) : CmdObj :=
  match id with
  | .forward => ⟨.forward, ulongOf value, 0, false, false⟩
  | .backward => ⟨.backward, ulongOf value, 0, false, false⟩
  | .left90 => ⟨.left90, 420, 0, false, false⟩
  | .right90 => ⟨.right90, 420, 0, false, false⟩
  | .paintOn => ⟨.paintOn, 0, 0, false, false⟩
  | .paintOff => ⟨.paintOff, 0, 0, false, false⟩
  | .wait => ⟨.wait, ulongOf value, 0, false, false⟩

/-- The actuation issued by each command's `start()` override. -/
def startAct : CmdId → RAct
  | .forward => .forward
  | .backward => .backward
  | .left90 => .rotLeft
  | .right90 => .rotRight
  | .paintOn => .paintOn
  | .paintOff => .paintOff
  | .wait => .stop

/-- `ICommand::start`: paint commands act and finish synchronously; timed
commands act, capture the start timestamp and become active. -/
def cmdStart (c : CmdObj) (now : ℕ) (log : List RAct) : CmdObj × List RAct :=
  match c.id with
  | .paintOn => ({ c with done := true }, RAct.paintOn :: log)
  | .paintOff => ({ c with done := true }, RAct.paintOff :: log)
  | _ => ({ c with startTime := now, active := true }, startAct c.id :: log)

/-- `ICommand::update`: paint commands do nothing; a timed command that is
active and whose duration has elapsed issues `onFinish` (a stop for every
concrete command) and deactivates. -/
def cmdUpdate (c : CmdObj) (now : ℕ) (log : List RAct) : CmdObj × List RAct :=
  match c.id with
  | .paintOn => (c, log)
  | .paintOff => (c, log)
  | _ =>
    if c.active = true ∧ c.duration ≤ now - c.startTime then
      ({ c with active := false }, RAct.stop :: log)
    else (c, log)

/-- `ICommand::finished`. -/
def cmdFinished (c : CmdObj) : Bool :=
  match c.id with
  | .paintOn => c.done
  | .paintOff => c.done
  | _ => !c.active

/-- ASCII whitespace recognized by `String::trim` (C `isspace`). -/
def isSpaceC (c : Char) : Bool :=
  c == ' ' || c == '\t' || c == '\n' || c == '\r' || c == Char.ofNat 11 || c == Char.ofNat 12

/-- `String::trim`: remove leading and trailing whitespace. -/
def trimC (l : List Char) : List Char :=
  ((l.dropWhile isSpaceC).reverse.dropWhile isSpaceC).reverse

/-- `CommandParser::startsWithToken`: the line starts with the token and
is either exactly the token or continues with a space or a tab. -/
def startsWithToken (line tok : List Char) : Bool :=
  tok.isPrefixOf line &&
    (line.length == tok.length ||
      (match (line.drop tok.length).head? with
       | some c => c == ' ' || c == '\t'
       | none => false))

/-- `String::indexOf(' ')`: index of the first space, if any. -/
def idxOfSpace : List Char → Option ℕ
  | [] => none
  | c :: cs => if c = ' ' then some 0 else (idxOfSpace cs).map (· + 1)

/-- Digit-string accumulator used by the `toFloat` model. -/
def digitsToNat : List Char → ℕ → ℕ
  | [], acc => acc
  | c :: cs, acc => digitsToNat cs (acc * 10 + (c.toNat - 48))

/-- Model of Arduino `String::toFloat` (avr-libc `strtod`, exponents not
modelled — no claim involves them): skip leading whitespace, optional
sign, integer digits, optional fractional digits; `0` if no digits. -/
def toFloatM (l : List Char) : ℚ :=
  let l1 := l.dropWhile isSpaceC
  let sl :=
    match l1 with
    | '-' :: r => ((-1 : ℚ), r)
    | '+' :: r => ((1 : ℚ), r)
    | _ => ((1 : ℚ), l1)
  let ip := sl.2.takeWhile Char.isDigit
  let r2 := sl.2.dropWhile Char.isDigit
  let fp :=
    match r2 with
    | '.' :: r3 => r3.takeWhile Char.isDigit
    | _ => []
  if ip.isEmpty ∧ fp.isEmpty then 0
  else sl.1 * ((digitsToNat ip 0 : ℚ) + (digitsToNat fp 0 : ℚ) / 10 ^ fp.length)

/-- `CommandParser::extractArgument`: everything after the first space,
parsed as a float; `0` when there is no space. -/
def extractArgument (line : List Char) : ℚ :=
  match idxOfSpace line with
  | none => 0
  | some p => toFloatM (line.drop (p + 1))

/-- The `for` loop of `CommandParser::parse` over `COMMAND_TABLE`. -/
def parseFind (l : List Char) : List CmdSpec → Option CmdObj
  | [] => none
  | spec :: rest =>
    if startsWithToken l spec.token then
      some (factoryCreate spec.id (if spec.hasArgument then extractArgument l else 0))
    else parseFind l rest

/-- `CommandParser::parse`: trim, reject empty lines, scan the table. -/
def parse (line : List Char) : Option CmdObj :=
  let l := trimC line
  if l.length = 0 then none else parseFind l COMMAND_TABLE

/-- `ProgramRunner` state: the open file (remaining lines; `none` = no
file), the current command, and the `running` / `finishedAll` flags. -/
structure Runner where
  file : Option (List (List Char))
  current : Option CmdObj
  running : Bool
  finishedAll : Bool
deriving DecidableEq

/-- `ProgramRunner::stop`: discard the command, stop the robot, drop the
file, clear both flags. -/
def runnerStop (log : List RAct) : Runner × List RAct :=
  (⟨none, none, false, false⟩, RAct.stop :: log)

/-- `ProgramRunner::start(IFile* f)`: `stop()`, then adopt the file and
run iff it is non-null. -/
def runnerStart (f : Option (List (List Char))) (log : List RAct) : Runner × List RAct :=
  let p := runnerStop log
  ({ p.1 with file := f, running := f.isSome }, p.2)

/-- `ProgramRunner::update`: forward one poll to the current command
(discarding it once finished); otherwise pull the next line — on an
exhausted source transition to `finishedAll` and stop the robot, on a
parsed line start the new command, on an unparseable line just skip it. -/
def runnerUpdate (r : Runner) (now : ℕ) (log : List RAct) : Runner × List RAct :=
  if r.running = false then (r, log)
  else
    match r.current with
    | some c =>
      let p := cmdUpdate c now log
      if cmdFinished p.1 then ({ r with current := none }, p.2)
      else ({ r with current := some p.1 }, p.2)
    | none =>
      match r.file with
      | none => ({ r with running := false, finishedAll := true }, RAct.stop :: log)
      | some [] => ({ r with running := false, finishedAll := true }, RAct.stop :: log)
      | some (line :: rest) =>
        match parse line with
        | none => ({ r with file := some rest }, log)
        | some c =>
          let p := cmdStart c now log
          ({ r with file := some rest, current := some p.1 }, p.2)

/-- Status lines emitted by `ProgramController::update`. -/
inductive Ev where
  | blocked
  | already
  | notFound
  | started
  | finished
deriving DecidableEq

/-- `ProgramController::update`: on a start edge, arbitrate against the
run-enable flag, the already-running guard and the catalog (the selector
and `IFileSystem::open` are collapsed into the `prog` argument, the
catalog's answer for the selected program); then, when run is enabled,
forward one `runner.update()` and report `finished` whenever the runner
is in `finishedAll` afterwards. -/
def controllerUpdate (edge enabled : Bool) (prog : Option (List (List Char))) (now : ℕ)
    (r : Runner) (log : List RAct) : Runner × List RAct × List Ev :=
  let q :=
    if edge then
      if enabled = false then (r, log, [Ev.blocked])
      else if r.running then (r, log, [Ev.already])
      else
        match prog with
        | none => (r, log, [Ev.notFound])
        | some lines =>
          let p := runnerStart (some lines) log
          (p.1, p.2, [Ev.started])
    else (r, log, ([] : List Ev))
  if enabled then
    let p := runnerUpdate q.1 now q.2.1
    (p.1, p.2, q.2.2 ++ (if p.1.finishedAll then [Ev.finished] else []))
  else q

/-- Run a sequence of `runnerUpdate` cycles at the given clock readings. -/
def runN : List ℕ → Runner → List RAct → Runner × List RAct
  | [], r, log => (r, log)
  | t :: ts, r, log =>
    let p := runnerUpdate r t log
    runN ts p.1 p.2

end Prog

namespace RobotR

/-- The first wrap loop only stops at a value at most 180. -/
theorem wrapDown_le (a : ℚ) : wrapDown a ≤ 180 := by
  induction a using wrapDown.induct with
  | case1 a h ih => rw [wrapDown, dif_pos h]; exact ih
  | case2 a h => rw [wrapDown, dif_neg h]; linarith [not_lt.mp h]

/-- The second wrap loop only stops at a value at least -180. -/
theorem wrapUp_ge (a : ℚ) : -180 ≤ wrapUp a := by
  induction a using wrapUp.induct with
  | case1 a h ih => rw [wrapUp, dif_pos h]; exact ih
  | case2 a h => rw [wrapUp, dif_neg h]; linarith [not_lt.mp h]

/-- The second wrap loop does not push a value above 180. -/
theorem wrapUp_le (a : ℚ) (ha : a ≤ 180) : wrapUp a ≤ 180 := by
  induction a using wrapUp.induct with
  | case1 a h ih => rw [wrapUp, dif_pos h]; exact ih (by linarith)
  | case2 a h => rw [wrapUp, dif_neg h]; exact ha

/-- The first wrap loop changes its input by a multiple of 360. -/
theorem wrapDown_congr (a : ℚ) : ∃ k : ℤ, wrapDown a = a + 360 * k := by
  induction a using wrapDown.induct with
  | case1 a h ih =>
    obtain ⟨k, hk⟩ := ih
    exact ⟨k - 1, by rw [wrapDown, dif_pos h, hk]; push_cast; ring⟩
  | case2 a h => exact ⟨0, by rw [wrapDown, dif_neg h]; ring⟩

/-- The second wrap loop changes its input by a multiple of 360. -/
theorem wrapUp_congr (a : ℚ) : ∃ k : ℤ, wrapUp a = a + 360 * k := by
  induction a using wrapUp.induct with
  | case1 a h ih =>
    obtain ⟨k, hk⟩ := ih
    exact ⟨k + 1, by rw [wrapUp, dif_pos h, hk]; push_cast; ring⟩
  | case2 a h => exact ⟨0, by rw [wrapUp, dif_neg h]; ring⟩

/-- Claim C9, counterexample: at input -180 the normalizer returns -180
itself, which is congruent to the input but NOT strictly greater than
-180, so the output is not in the claimed half-open interval (-180, 180]. -/
theorem norm180_neg180_cex :
    norm180 (-180) = -180 ∧ ¬(-180 < norm180 (-180)) := by
  have h : norm180 (-180 : ℚ) = -180 := by
    rw [norm180, wrapDown, dif_neg (by norm_num), wrapUp, dif_neg (by norm_num)]
  exact ⟨h, by rw [h]; exact lt_irrefl _⟩

/-- Claim C9 (amended): for every input angle, `norm180` returns a value
in the closed interval [-180, 180] (both endpoints are attainable: -180
maps to itself), and the result differs from the input by an integer
multiple of 360. -/
theorem norm180_range (a : ℚ) :
    -180 ≤ norm180 a ∧ norm180 a ≤ 180 ∧ ∃ k : ℤ, norm180 a = a + 360 * k := by
  refine ⟨wrapUp_ge _, wrapUp_le _ (wrapDown_le a), ?_⟩
  obtain ⟨k1, h1⟩ := wrapDown_congr a
  obtain ⟨k2, h2⟩ := wrapUp_congr (wrapDown a)
  exact ⟨k1 + k2, by rw [norm180, h2, h1]; push_cast; ring⟩

/-- Reduction of `shouldStopNow` when the stop flag is clear. -/
theorem shouldStopNow_eq_false (e : Env) (st : MState) (h : e.stopAt st.now = false) :
    shouldStopNow e st = (false, st) := by simp [shouldStopNow, h]

/-- Reduction of `shouldStopNow` when the stop flag is set. -/
theorem shouldStopNow_eq_true (e : Env) (st : MState) (h : e.stopAt st.now = true) :
    shouldStopNow e st = (true, Motor Stop 0 st) := by simp [shouldStopNow, h]

/-- If the stop flag is not set at any pre-slice check instant, the delay
loop completes the full wait: it returns `true`, performs no actuation,
and the clock advances by the whole (2 ms-quantized) duration. -/
theorem smartDelayAux_no_stop (e : Env) (ms : ℕ) :
    ∀ k elapsed st, ms - elapsed ≤ 2 * k →
      (∀ i, elapsed + 2 * i < ms → e.stopAt (st.now + 2 * i) = false) →
      smartDelayAux e ms elapsed st =
        (true, { st with now := st.now + 2 * ((ms - elapsed + 1) / 2) }) := by
  intro k
  induction k with
  | zero =>
    intro elapsed st hk _
    rw [smartDelayAux, dif_neg (by omega)]
    have h2 : 2 * ((ms - elapsed + 1) / 2) = 0 := by omega
    rw [h2]
    simp
  | succ k ih =>
    intro elapsed st hk hstop
    obtain ⟨n, si, lg, en⟩ := st
    by_cases h : elapsed < ms
    · have hs0 : e.stopAt n = false := by simpa using hstop 0 (by omega)
      rw [smartDelayAux, dif_pos h, shouldStopNow_eq_false e _ hs0]
      show smartDelayAux e ms (elapsed + 2) ⟨n + 2, si, lg, en⟩ = _
      rw [ih (elapsed + 2) ⟨n + 2, si, lg, en⟩ (by omega) (fun i hi => by
        simpa [show n + 2 + 2 * i = n + 2 * (i + 1) by ring] using hstop (i + 1) (by omega))]
      simp only [Prod.mk.injEq, MState.mk.injEq, true_and, and_true]
      omega
    · rw [smartDelayAux, dif_neg h]
      have h2 : 2 * ((ms - elapsed + 1) / 2) = 0 := by omega
      rw [h2]
      simp

/-- If the stop flag is set at some pre-slice check instant, the delay
loop returns `false`: exactly one full-stop actuator command is appended,
the enable line is disabled, and the remaining wait is abandoned
(strictly less than the requested duration elapsed). -/
theorem smartDelayAux_stop (e : Env) (ms : ℕ) :
    ∀ k elapsed st, ms - elapsed ≤ 2 * k →
      (∃ i, elapsed + 2 * i < ms ∧ e.stopAt (st.now + 2 * i) = true) →
      ∃ j, elapsed + 2 * j < ms ∧
        smartDelayAux e ms elapsed st =
          (false, { st with now := st.now + 2 * j, log := (Stop, 0) :: st.log, en := false }) := by
  intro k
  induction k with
  | zero =>
    intro elapsed st hk hex
    obtain ⟨i, hi, _⟩ := hex
    omega
  | succ k ih =>
    intro elapsed st hk hex
    obtain ⟨i, hi, hsi⟩ := hex
    obtain ⟨n, si, lg, en⟩ := st
    have h : elapsed < ms := by omega
    by_cases hs : e.stopAt n = true
    · refine ⟨0, by omega, ?_⟩
      rw [smartDelayAux, dif_pos h, shouldStopNow_eq_true e _ hs]
      simp [Motor, Stop]
    · have hs' : e.stopAt n = false := by simpa using hs
      have hi1 : 1 ≤ i := by
        rcases Nat.eq_zero_or_pos i with h0 | h1
        · exfalso; rw [h0] at hsi; simp at hsi; rw [hsi] at hs'; simp at hs'
        · exact h1
      rw [smartDelayAux, dif_pos h, shouldStopNow_eq_false e _ hs']
      obtain ⟨j, hj, heq⟩ := ih (elapsed + 2) ⟨n + 2, si, lg, en⟩ (by omega)
        ⟨i - 1, by omega, by
          show e.stopAt (n + 2 + 2 * (i - 1)) = true
          rw [show n + 2 + 2 * (i - 1) = n + 2 * i by omega]
          exact hsi⟩
      refine ⟨j + 1, by omega, ?_⟩
      show smartDelayAux e ms (elapsed + 2) ⟨n + 2, si, lg, en⟩ = _
      rw [heq]
      simp only [Prod.mk.injEq, MState.mk.injEq, true_and, and_true]
      omega

/-- Claim C4, counterexample: a stop request asserted 1 ms into a
requested 2 ms wait (i.e. during the final slice, after the only
pre-slice check) does NOT interrupt the wait: `smartDelay` runs to
completion and returns `true` with no stop command issued, even though
the flag was set strictly before the requested duration had elapsed. -/
theorem smartDelay_midslice_cex :
    smartDelay ⟨fun _ => 0, some 1⟩ 2 ⟨0, 0, [], false⟩ = (true, ⟨2, 0, [], false⟩) ∧
    Env.stopAt ⟨fun _ => 0, some 1⟩ 1 = true ∧ (1 : ℕ) < 2 := by
  refine ⟨?_, by decide, by omega⟩
  rw [smartDelay, smartDelayAux, dif_pos (by omega),
    shouldStopNow_eq_false _ _ (by decide)]
  show smartDelayAux ⟨fun _ => 0, some 1⟩ 2 (0 + 2) ⟨0 + 2, 0, [], false⟩ = _
  rw [smartDelayAux, dif_neg (by omega)]

/-- Claim C4 (amended): `smartDelay` sleeps in 2 ms slices and checks the
stop flag before each slice (there is no check after the final slice).
If the flag is set at some pre-slice check instant, the call immediately
issues a full actuator stop, disables the enable line, and returns
`false` (interrupted) with the remaining wait abandoned; if the flag is
clear at every check instant, the full (2 ms-quantized) duration elapses,
no actuation is touched, and the call returns `true` (completed). -/
theorem smartDelay_interrupt (e : Env) (ms : ℕ) (st : MState) :
    ((∃ i, 2 * i < ms ∧ e.stopAt (st.now + 2 * i) = true) →
      ∃ j, 2 * j < ms ∧
        smartDelay e ms st =
          (false, { st with now := st.now + 2 * j, log := (Stop, 0) :: st.log, en := false })) ∧
    ((∀ i, 2 * i < ms → e.stopAt (st.now + 2 * i) = false) →
      smartDelay e ms st = (true, { st with now := st.now + 2 * ((ms + 1) / 2) })) := by
  constructor
  · intro hex
    obtain ⟨j, hj, heq⟩ := smartDelayAux_stop e ms ms 0 st (by omega)
      (by simpa using hex)
    exact ⟨j, by omega, heq⟩
  · intro hall
    have := smartDelayAux_no_stop e ms ms 0 st (by omega) (by simpa using hall)
    simpa using this

/-- Witness for the amended C4 theorem at a concrete input: stop flag set
from time 0, requested duration 10 ms. -/
theorem smartDelay_interrupt_witness :
    ∃ j, 2 * j < 10 ∧
      smartDelay ⟨fun _ => 0, some 0⟩ 10 ⟨0, 0, [], false⟩ =
        (false, { (⟨0, 0, [], false⟩ : MState) with now := 0 + 2 * j, log := [(Stop, 0)], en := false }) :=
  (smartDelay_interrupt ⟨fun _ => 0, some 0⟩ 10 ⟨0, 0, [], false⟩).1
    ⟨0, by omega, by decide⟩

/-- With no stop request pending, `stopReq` reads false at every time. -/
theorem stopAt_none (e : Env) (he : e.stopTime = none) (t : ℕ) : e.stopAt t = false := by
  simp [Env.stopAt, he]

/-- With no stop request pending, `shouldStopNow` is a no-op. -/
theorem shouldStopNow_none (e : Env) (he : e.stopTime = none) (st : MState) :
    shouldStopNow e st = (false, st) :=
  shouldStopNow_eq_false e st (stopAt_none e he st.now)

/-- With no stop request pending, `smartDelay` completes the full wait. -/
theorem smartDelay_none (e : Env) (he : e.stopTime = none) (ms : ℕ) (st : MState) :
    smartDelay e ms st = (true, { st with now := st.now + 2 * ((ms + 1) / 2) }) := by
  have := smartDelayAux_no_stop e ms ms 0 st (by omega)
    (fun i _ => stopAt_none e he (st.now + 2 * i))
  simpa using this

/-- `Motor Stop 0` appends a stop record and disables the motors. -/
theorem Motor_stop_eq (st : MState) :
    Motor Stop 0 st = { st with log := (Stop, 0) :: st.log, en := false } := by
  simp [Motor]

/-- A pair whose components are known is that pair. -/
theorem prodBM_eq {p : Bool × MState} {st' : MState} (h1 : p.1 = false) (h2 : p.2 = st') :
    p = (false, st') := by
  obtain ⟨b, s⟩ := p
  simp only at h1 h2
  rw [h1, h2]

/-- If `shouldStopNow` reports true, it has issued a full stop. -/
theorem shouldStopNow_fst_true {e : Env} {st : MState}
    (h : (shouldStopNow e st).1 = true) : (shouldStopNow e st).2 = Motor Stop 0 st := by
  by_cases hb : e.stopAt st.now = true
  · simp [shouldStopNow, hb]
  · simp [shouldStopNow, hb] at h

/-- A `false` return from the delay loop leaves a stop command on top of
the log and the enable line low. -/
theorem smartDelayAux_false (e : Env) (ms : ℕ) :
    ∀ k elapsed st st', ms - elapsed ≤ 2 * k →
      smartDelayAux e ms elapsed st = (false, st') →
      st'.log.head? = some (Stop, 0) ∧ st'.en = false := by
  intro k
  induction k with
  | zero =>
    intro elapsed st st' hk h
    rw [smartDelayAux, dif_neg (by omega)] at h
    simp at h
  | succ k ih =>
    intro elapsed st st' hk h
    by_cases hel : elapsed < ms
    · rw [smartDelayAux, dif_pos hel] at h
      by_cases hs : e.stopAt st.now = true
      · rw [shouldStopNow_eq_true e _ hs] at h
        have h2 : ((false : Bool), Motor Stop 0 st) = (false, st') := h
        injection h2 with _ h3
        rw [← h3, Motor_stop_eq]
        simp
      · rw [shouldStopNow_eq_false e _ (by simpa using hs)] at h
        exact ih (elapsed + 2) { st with now := st.now + 2 } st' (by omega) h
    · rw [smartDelayAux, dif_neg hel] at h
      simp at h

/-- `smartDelay` version of `smartDelayAux_false`. -/
theorem smartDelay_false {e : Env} {ms : ℕ} {st st' : MState}
    (h : smartDelay e ms st = (false, st')) :
    st'.log.head? = some (Stop, 0) ∧ st'.en = false :=
  smartDelayAux_false e ms ms 0 st st' (by omega) h

/-- A `false` return from the MICRO-zone loop likewise ends in a stop. -/
theorem microLoop_false (e : Env) (c : RotCfg) (ov : Bool) :
    ∀ n st st', microLoop e c ov n st = (false, st') →
      st'.log.head? = some (Stop, 0) ∧ st'.en = false := by
  intro n
  induction n with
  | zero =>
    intro st st' h
    simp [microLoop] at h
  | succ i ih =>
    intro st st' h
    simp only [microLoop] at h
    by_cases h1 : (shouldStopNow e st).1 = true
    · rw [if_pos h1] at h
      injection h with _ h3
      rw [← h3, shouldStopNow_fst_true h1, Motor_stop_eq]
      simp
    · rw [if_neg h1] at h
      repeat' split at h
      all_goals first
        | (injection h with hb h3; exact Bool.noConfusion hb)
        | (rename_i hc; injection h with _ h3; exact smartDelay_false (prodBM_eq hc h3))
        | exact ih _ st' h

/-- Every `.inl` (exit) outcome of one control-loop iteration carries a
machine state whose most recent actuator command is a full stop with the
enable line low. -/
theorem rotateStep_exit (e : Env) (c : RotCfg) (ls : LoopSt) (r : RotExit) (st : MState)
    (h : rotateStep e c ls = .inl (r, st)) :
    st.log.head? = some (Stop, 0) ∧ st.en = false := by
  simp only [rotateStep] at h
  by_cases h1 : (shouldStopNow e ls.st).1 = true
  · rw [if_pos h1] at h
    injection h with h2
    injection h2 with _ h3
    rw [← h3, shouldStopNow_fst_true h1, Motor_stop_eq]
    simp
  · rw [if_neg h1] at h
    revert h
    generalize norm180 (c.target - e.hdg ls.st.sIdx) = err
    generalize (if (0 : ℚ) ≤ err then (1 : ℤ) else -1) = sg
    generalize (if ls.overshot = false ∧ sg ≠ c.sign0 ∧ OVERSHOOT_DEG < |err| then true
      else ls.overshot) = ov2
    intro h
    repeat' split at h
    all_goals first
      | exact Sum.noConfusion h
      | (rename_i hc; injection h with h2; injection h2 with _ h3;
          exact smartDelay_false (prodBM_eq hc h3))
      | (rename_i hc; injection h with h2; injection h2 with _ h3;
          exact microLoop_false e c _ 3 _ st (prodBM_eq hc h3))
      | (injection h with h2; injection h2 with _ h3; rw [← h3, Motor_stop_eq];
          exact ⟨rfl, rfl⟩)

/-- Every exit of the control loop carries a final stop command. -/
theorem rotateLoop_exit (e : Env) (c : RotCfg) :
    ∀ fuel ls r st, rotateLoop e c fuel ls = some (r, st) →
      st.log.head? = some (Stop, 0) ∧ st.en = false := by
  intro fuel
  induction fuel with
  | zero => intro ls r st h; simp [rotateLoop] at h
  | succ f ih =>
    intro ls r st h
    rw [rotateLoop] at h
    cases hs : rotateStep e c ls with
    | inl p =>
      rw [hs] at h
      have h2 : some p = some (r, st) := h
      injection h2 with h3
      rw [h3] at hs
      exact rotateStep_exit e c ls r st hs
    | inr ls1 =>
      rw [hs] at h
      exact ih ls1 r st h

/-- Claim C3: `Rotate` has exactly the three exit kinds enumerated by
`RotExit` (stop request, 9000 ms timeout, convergence); the returned
boolean is true exactly for convergence (timeout and stop return false),
and on every exit path the most recent actuator command is a full stop
with the enable line low. -/
theorem rotate_exit_stops (phi : ℚ) (e : Env) (fuel : ℕ) (r : RotExit) (st : MState)
    (h : Rotate phi e fuel = some (r, st)) :
    (st.log.head? = some (Stop, 0) ∧ st.en = false) ∧ (r.toB = true ↔ r = .converged) := by
  refine ⟨?_, by cases r <;> simp [RotExit.toB]⟩
  simp only [Rotate] at h
  by_cases h1 : (shouldStopNow e ⟨0, 0, [], false⟩).1 = true
  · rw [if_pos h1] at h
    injection h with h2
    injection h2 with _ h3
    rw [← h3, shouldStopNow_fst_true h1, Motor_stop_eq]
    exact ⟨rfl, rfl⟩
  · rw [if_neg h1] at h
    by_cases hphi : (0 : ℚ) < phi
    · simp only [if_pos hphi] at h
      repeat' split at h
      all_goals first
        | (rename_i hc; injection h with h2; injection h2 with _ h3;
            exact smartDelay_false (prodBM_eq hc h3))
        | (injection h with h2; injection h2 with _ h3; rw [← h3, Motor_stop_eq];
            exact ⟨rfl, rfl⟩)
        | exact rotateLoop_exit e _ fuel _ r st h
    · simp only [if_neg hphi] at h
      repeat' split at h
      all_goals first
        | (rename_i hc; injection h with h2; injection h2 with _ h3;
            exact smartDelay_false (prodBM_eq hc h3))
        | (injection h with h2; injection h2 with _ h3; rw [← h3, Motor_stop_eq];
            exact ⟨rfl, rfl⟩)
        | exact rotateLoop_exit e _ fuel _ r st h

/-- Witness for the C3 theorem at a concrete input: a stop request
pending at entry makes `Rotate` exit `.stopped` with a logged stop. -/
theorem rotate_exit_stops_witness :
    ((⟨0, 0, [(Stop, 0)], false⟩ : MState).log.head? = some (Stop, 0) ∧
      (⟨0, 0, [(Stop, 0)], false⟩ : MState).en = false) ∧
    (RotExit.stopped.toB = true ↔ RotExit.stopped = RotExit.converged) :=
  rotate_exit_stops 0 ⟨fun _ => 0, some 0⟩ 1 RotExit.stopped ⟨0, 0, [(Stop, 0)], false⟩
    (by decide)

/-- An in-tolerance sample (no stop pending, no timeout) stops actuation,
increments the stability counter, and exits with success exactly when the
incremented counter reaches `STABLE_CNT`; otherwise the controller holds
for 25 ms and continues with the incremented counter. -/
theorem rotateStep_tol (e : Env) (c : RotCfg) (ls : LoopSt)
    (hstop : e.stopAt ls.st.now = false)
    (hT : ¬TIMEOUT_MS < ls.st.now)
    (htol : |norm180 (c.target - e.hdg ls.st.sIdx)| ≤ ANGLE_TOL) :
    rotateStep e c ls =
      (if STABLE_CNT ≤ ls.stableCnt + 1 then
        .inl (.converged, Motor Stop 0 { ls.st with sIdx := ls.st.sIdx + 1 })
      else
        (let p := smartDelay e 25 (Motor Stop 0 { ls.st with sIdx := ls.st.sIdx + 1 });
          if p.1 = false then .inl (.stopped, p.2)
          else .inr ⟨p.2, ls.stableCnt + 1, ls.overshot⟩)) := by
  simp only [rotateStep]
  rw [if_neg (by rw [shouldStopNow_eq_false e ls.st hstop]; simp)]
  rw [if_neg hT, if_pos htol]

/-- An out-of-tolerance sample resets the stability counter to zero on
every continuing iteration. -/
theorem rotateStep_reset (e : Env) (c : RotCfg) (ls ls' : LoopSt)
    (hntol : ¬|norm180 (c.target - e.hdg ls.st.sIdx)| ≤ ANGLE_TOL)
    (h : rotateStep e c ls = .inr ls') : ls'.stableCnt = 0 := by
  simp only [rotateStep] at h
  by_cases h1 : (shouldStopNow e ls.st).1 = true
  · rw [if_pos h1] at h
    exact Sum.noConfusion h
  · rw [if_neg h1] at h
    revert hntol h
    generalize norm180 (c.target - e.hdg ls.st.sIdx) = err
    generalize (if (0 : ℚ) ≤ err then (1 : ℤ) else -1) = sg
    generalize (if ls.overshot = false ∧ sg ≠ c.sign0 ∧ OVERSHOOT_DEG < |err| then true
      else ls.overshot) = ov2
    intro hntol h
    rw [if_neg hntol] at h
    repeat' split at h
    all_goals first
      | exact Sum.noConfusion h
      | (injection h with h2; rw [← h2])

/-- The control loop exits with success only from an in-tolerance sample
whose incremented stability counter has reached `STABLE_CNT`. -/
theorem rotateStep_conv (e : Env) (c : RotCfg) (ls : LoopSt) (st : MState)
    (h : rotateStep e c ls = .inl (.converged, st)) :
    |norm180 (c.target - e.hdg ls.st.sIdx)| ≤ ANGLE_TOL ∧ STABLE_CNT ≤ ls.stableCnt + 1 := by
  simp only [rotateStep] at h
  by_cases h1 : (shouldStopNow e ls.st).1 = true
  · rw [if_pos h1] at h
    injection h with h2
    injection h2 with hr _
    exact RotExit.noConfusion hr
  · rw [if_neg h1] at h
    by_cases htol : |norm180 (c.target - e.hdg ls.st.sIdx)| ≤ ANGLE_TOL
    · refine ⟨htol, ?_⟩
      by_cases hst : STABLE_CNT ≤ ls.stableCnt + 1
      · exact hst
      · exfalso
        by_cases hTO : TIMEOUT_MS < ls.st.now
        · rw [if_pos hTO] at h
          injection h with h2
          injection h2 with hr _
          exact RotExit.noConfusion hr
        · rw [if_neg hTO, if_pos htol, if_neg hst] at h
          split at h
          · injection h with h2
            injection h2 with hr _
            exact RotExit.noConfusion hr
          · exact Sum.noConfusion h
    · exfalso
      revert htol h
      generalize norm180 (c.target - e.hdg ls.st.sIdx) = err
      generalize (if (0 : ℚ) ≤ err then (1 : ℤ) else -1) = sg
      generalize (if ls.overshot = false ∧ sg ≠ c.sign0 ∧ OVERSHOOT_DEG < |err| then true
        else ls.overshot) = ov2
      intro h htol
      rw [if_neg htol] at h
      repeat' split at h
      all_goals first
        | exact Sum.noConfusion h
        | (injection h with h2; injection h2 with hr _; exact RotExit.noConfusion hr)

/-- With no stop request and every sample in tolerance, the control loop
counts up from `cnt` and exits `.converged` after exactly
`STABLE_CNT - cnt` further samples, the last action being a stop. -/
theorem rotateLoop_conv (e : Env) (c : RotCfg) (he : e.stopTime = none)
    (herr : ∀ i, |norm180 (c.target - e.hdg i)| ≤ ANGLE_TOL) :
    ∀ m cnt st fuel ov, m = STABLE_CNT - cnt → cnt < STABLE_CNT →
      st.now + 26 * m ≤ TIMEOUT_MS → m ≤ fuel →
      ∃ st', rotateLoop e c fuel ⟨st, cnt, ov⟩ = some (.converged, st') ∧
        st'.sIdx = st.sIdx + m ∧ st'.log.head? = some (Stop, 0) := by
  intro m
  induction m with
  | zero =>
    intro cnt st fuel ov hm hcnt _ _
    omega
  | succ m ih =>
    intro cnt st fuel ov hm hcnt hnow hfuel
    cases fuel with
    | zero => omega
    | succ f =>
      rw [rotateLoop]
      rw [rotateStep_tol e c ⟨st, cnt, ov⟩ (stopAt_none e he _)
        (show ¬TIMEOUT_MS < st.now by omega) (herr _)]
      by_cases hst : STABLE_CNT ≤ cnt + 1
      · rw [if_pos hst]
        refine ⟨Motor Stop 0 { st with sIdx := st.sIdx + 1 }, rfl, ?_, ?_⟩
        · rw [Motor_stop_eq]
          show st.sIdx + 1 = st.sIdx + (m + 1)
          omega
        · rw [Motor_stop_eq]
          rfl
      · rw [if_neg hst]
        simp only [smartDelay_none e he, Motor_stop_eq]
        obtain ⟨st', hloop, hsidx, hhead⟩ := ih (cnt + 1)
          ⟨st.now + 26, st.sIdx + 1, (Stop, 0) :: st.log, false⟩ f ov
          (by omega) (by omega) (show st.now + 26 + 26 * m ≤ TIMEOUT_MS by omega)
          (by omega)
        refine ⟨st', ?_, ?_, hhead⟩
        · exact hloop
        · show st'.sIdx = st.sIdx + (m + 1)
          rw [hsidx]
          show st.sIdx + 1 + m = st.sIdx + (m + 1)
          omega

/-- With no stop request pending and every heading sample within
tolerance of the computed target, `Rotate` (given fuel for the required
iterations) returns success after exactly `STABLE_CNT` consecutive stable
samples: the final state has consumed `2 + STABLE_CNT` samples (initial
heading, initial error, and the `STABLE_CNT` stable loop samples) and its
last actuator command is a stop. -/
theorem rotate_converges (phi : ℚ) (e : Env) (fuel : ℕ)
    (he : e.stopTime = none)
    (herr : ∀ i, |norm180 ((e.hdg 0 - phi * (if 0 < phi then K_TURN_R else K_TURN_L)) -
      e.hdg i)| ≤ ANGLE_TOL)
    (hfuel : STABLE_CNT ≤ fuel) :
    ∃ st, Rotate phi e fuel = some (.converged, st) ∧ st.sIdx = 2 + STABLE_CNT ∧
      st.log.head? = some (Stop, 0) := by
  by_cases hphi : (0 : ℚ) < phi
  · simp only [if_pos hphi] at herr
    obtain ⟨st', hloop, hsidx, hhead⟩ := rotateLoop_conv e
      ⟨e.hdg 0 - phi * K_TURN_R, RotateRight, RotateLeft,
        (if 0 ≤ norm180 ((e.hdg 0 - phi * K_TURN_R) - e.hdg 1) then 1 else -1)⟩ he
      herr STABLE_CNT 0 ⟨110, 2, [(Stop, 0), (RotateRight, FAST_PWM)], false⟩ fuel false
      (by omega) (by decide) (by decide) hfuel
    refine ⟨st', ?_, hsidx, hhead⟩
    simp only [Rotate, shouldStopNow_none e he, smartDelay_none e he, if_pos hphi,
      Motor, FAST_PWM, ROT_FAST_PWM, RotateRight, RotateLeft, Stop]
    norm_num
    exact hloop
  · simp only [if_neg hphi] at herr
    obtain ⟨st', hloop, hsidx, hhead⟩ := rotateLoop_conv e
      ⟨e.hdg 0 - phi * K_TURN_L, RotateLeft, RotateRight,
        (if 0 ≤ norm180 ((e.hdg 0 - phi * K_TURN_L) - e.hdg 1) then 1 else -1)⟩ he
      herr STABLE_CNT 0 ⟨110, 2, [(Stop, 0), (RotateLeft, FAST_PWM)], false⟩ fuel false
      (by omega) (by decide) (by decide) hfuel
    refine ⟨st', ?_, hsidx, hhead⟩
    simp only [Rotate, shouldStopNow_none e he, smartDelay_none e he, if_neg hphi,
      Motor, FAST_PWM, ROT_FAST_PWM, RotateRight, RotateLeft, Stop]
    norm_num
    exact hloop

/-- `norm180` fixes the in-range values 0 and -100 (evaluation lemmas). -/
theorem norm180_zero : norm180 (0 : ℚ) = 0 := by
  rw [norm180, wrapDown, dif_neg (by norm_num), wrapUp, dif_neg (by norm_num)]

/-- `norm180 (-100) = -100`. -/
theorem norm180_m100 : norm180 (-100 : ℚ) = -100 := by
  rw [norm180, wrapDown, dif_neg (by norm_num), wrapUp, dif_neg (by norm_num)]

/-- Claim C1: (i) an in-tolerance sample (no stop, no timeout) stops
actuation, increments the stability counter, and returns success exactly
when the incremented counter reaches `STABLE_CNT`, otherwise holding and
continuing with the incremented counter; (ii) an out-of-tolerance sample
resets the counter to zero on every continuing iteration; (iii) success
is returned only from an in-tolerance sample whose counter has reached
`STABLE_CNT` (a stop command precedes the success return — the success
state's log head is a stop, see `rotateStep_tol`/`rotate_exit_stops`);
(iv) in particular, with the heading within tolerance of the target from
call time on and no stop request, the call returns success after exactly
the minimum `STABLE_CNT` stable samples, with actuation stopped. -/
theorem rotate_stability_counter :
    (∀ (e : Env) (c : RotCfg) (ls : LoopSt),
      e.stopAt ls.st.now = false → ¬TIMEOUT_MS < ls.st.now →
      |norm180 (c.target - e.hdg ls.st.sIdx)| ≤ ANGLE_TOL →
      rotateStep e c ls =
        (if STABLE_CNT ≤ ls.stableCnt + 1 then
          .inl (.converged, Motor Stop 0 { ls.st with sIdx := ls.st.sIdx + 1 })
        else
          (let p := smartDelay e 25 (Motor Stop 0 { ls.st with sIdx := ls.st.sIdx + 1 });
            if p.1 = false then .inl (.stopped, p.2)
            else .inr ⟨p.2, ls.stableCnt + 1, ls.overshot⟩))) ∧
    (∀ (e : Env) (c : RotCfg) (ls ls' : LoopSt),
      ¬|norm180 (c.target - e.hdg ls.st.sIdx)| ≤ ANGLE_TOL →
      rotateStep e c ls = .inr ls' → ls'.stableCnt = 0) ∧
    (∀ (e : Env) (c : RotCfg) (ls : LoopSt) (st : MState),
      rotateStep e c ls = .inl (.converged, st) →
      |norm180 (c.target - e.hdg ls.st.sIdx)| ≤ ANGLE_TOL ∧ STABLE_CNT ≤ ls.stableCnt + 1) ∧
    (∀ (phi : ℚ) (e : Env) (fuel : ℕ), e.stopTime = none →
      (∀ i, |norm180 ((e.hdg 0 - phi * (if 0 < phi then K_TURN_R else K_TURN_L)) -
        e.hdg i)| ≤ ANGLE_TOL) →
      STABLE_CNT ≤ fuel →
      ∃ st, Rotate phi e fuel = some (.converged, st) ∧ st.sIdx = 2 + STABLE_CNT ∧
        st.log.head? = some (Stop, 0)) :=
  ⟨rotateStep_tol, rotateStep_reset, rotateStep_conv, rotate_converges⟩

/-- Witness for the C1 theorem at concrete inputs: target 0 with constant
heading 0 (in tolerance) for (i), (iii), (iv); constant heading 100 (out
of tolerance, far zone) for (ii). -/
theorem rotate_stability_counter_witness :
    (rotateStep ⟨fun _ => 0, none⟩ ⟨0, RotateRight, RotateLeft, 1⟩
        ⟨⟨0, 0, [], false⟩, 0, false⟩ =
      (if STABLE_CNT ≤ 0 + 1 then
        .inl (.converged, Motor Stop 0 { (⟨0, 0, [], false⟩ : MState) with sIdx := 0 + 1 })
      else
        (let p := smartDelay ⟨fun _ => 0, none⟩ 25
            (Motor Stop 0 { (⟨0, 0, [], false⟩ : MState) with sIdx := 0 + 1 });
          if p.1 = false then .inl (.stopped, p.2)
          else .inr ⟨p.2, 0 + 1, false⟩))) ∧
    ((⟨⟨10, 1, [(RotateLeft, ROT_FAST_PWM)], true⟩, 0, true⟩ : LoopSt).stableCnt = 0) ∧
    (|norm180 ((0 : ℚ) - 0)| ≤ ANGLE_TOL ∧ STABLE_CNT ≤ 9 + 1) ∧
    (∃ st, Rotate 0 ⟨fun _ => 0, none⟩ STABLE_CNT = some (.converged, st) ∧
      st.sIdx = 2 + STABLE_CNT ∧ st.log.head? = some (Stop, 0)) := by
  refine ⟨?_, ?_, ?_, ?_⟩
  · exact rotate_stability_counter.1 ⟨fun _ => 0, none⟩ ⟨0, RotateRight, RotateLeft, 1⟩
      ⟨⟨0, 0, [], false⟩, 0, false⟩ (by decide) (by decide)
      (by show |norm180 ((0 : ℚ) - 0)| ≤ ANGLE_TOL; norm_num [norm180_zero, ANGLE_TOL])
  · exact rotate_stability_counter.2.1 ⟨fun _ => 100, none⟩ ⟨0, RotateRight, RotateLeft, 1⟩
      ⟨⟨0, 0, [], false⟩, 5, false⟩ ⟨⟨10, 1, [(RotateLeft, ROT_FAST_PWM)], true⟩, 0, true⟩
      (by show ¬|norm180 ((0 : ℚ) - 100)| ≤ ANGLE_TOL; norm_num [norm180_m100, ANGLE_TOL])
      (by show rotateStep ⟨fun _ => 100, none⟩ ⟨0, RotateRight, RotateLeft, 1⟩
            ⟨⟨0, 0, [], false⟩, 5, false⟩ =
            .inr ⟨⟨10, 1, [(RotateLeft, ROT_FAST_PWM)], true⟩, 0, true⟩
          have hsd := smartDelay_none ⟨fun _ => 100, none⟩ rfl
          norm_num [rotateStep, shouldStopNow, Env.stopAt, norm180_m100, hsd, pickCmd,
            Motor, RotateLeft, RotateRight, Stop, FAST_PWM, ROT_FAST_PWM, ANGLE_TOL,
            OVERSHOOT_DEG, TIMEOUT_MS, STABLE_CNT])
  · exact rotate_stability_counter.2.2.1 ⟨fun _ => 0, none⟩ ⟨0, RotateRight, RotateLeft, 1⟩
      ⟨⟨0, 0, [], false⟩, 9, false⟩ ⟨0, 1, [(Stop, 0)], false⟩
      (by show rotateStep ⟨fun _ => 0, none⟩ ⟨0, RotateRight, RotateLeft, 1⟩
            ⟨⟨0, 0, [], false⟩, 9, false⟩ = .inl (.converged, ⟨0, 1, [(Stop, 0)], false⟩)
          norm_num [rotateStep, shouldStopNow, Env.stopAt, norm180_zero, Motor, Stop,
            ANGLE_TOL, TIMEOUT_MS, STABLE_CNT])
  · exact rotate_stability_counter.2.2.2 0 ⟨fun _ => 0, none⟩ STABLE_CNT rfl
      (fun i => by norm_num [norm180_zero, ANGLE_TOL]) (le_refl _)

/-- A boolean that is not false is true. -/
theorem bool_ne_false {b : Bool} (h : ¬b = false) : b = true := by
  cases b
  · exact absurd rfl h
  · rfl

/-- A `Motor` call only adds a stop record or its own command. -/
theorem trans_motor {P : ℤ × ℤ → Prop} {st : MState} (d s : ℤ)
    (hst : ∀ pr ∈ st.log, P pr) (h0 : P (Stop, 0)) (hds : P (d, s)) :
    ∀ pr ∈ (Motor d s st).log, P pr := by
  intro pr hpr
  rw [Motor] at hpr
  split at hpr
  · rcases List.mem_cons.mp hpr with h | h
    · rw [h]; exact h0
    · exact hst pr h
  · rcases List.mem_cons.mp hpr with h | h
    · rw [h]; exact hds
    · exact hst pr h

/-- `shouldStopNow` only adds a stop record. -/
theorem trans_ssn {P : ℤ × ℤ → Prop} {e : Env} {st : MState}
    (hst : ∀ pr ∈ st.log, P pr) (h0 : P (Stop, 0)) :
    ∀ pr ∈ (shouldStopNow e st).2.log, P pr := by
  rw [shouldStopNow]
  split
  · exact trans_motor Stop 0 hst h0 h0
  · exact hst

/-- The delay loop only adds stop records. -/
theorem trans_sdAux {P : ℤ × ℤ → Prop} (e : Env) (ms : ℕ) :
    ∀ k elapsed st, ms - elapsed ≤ 2 * k → (∀ pr ∈ st.log, P pr) → P (Stop, 0) →
      ∀ pr ∈ (smartDelayAux e ms elapsed st).2.log, P pr := by
  intro k
  induction k with
  | zero =>
    intro el st hk hst _
    rw [smartDelayAux, dif_neg (by omega)]
    exact hst
  | succ k ih =>
    intro el st hk hst h0
    by_cases hel : el < ms
    · rw [smartDelayAux, dif_pos hel]
      by_cases hs : e.stopAt st.now = true
      · rw [shouldStopNow_eq_true e _ hs]
        exact trans_motor Stop 0 hst h0 h0
      · rw [shouldStopNow_eq_false e _ (by simpa using hs)]
        exact ih (el + 2) { st with now := st.now + 2 } (by omega) hst h0
    · rw [smartDelayAux, dif_neg hel]
      exact hst

/-- `smartDelay` only adds stop records. -/
theorem trans_sd {P : ℤ × ℤ → Prop} (e : Env) (ms : ℕ) (st : MState)
    (hst : ∀ pr ∈ st.log, P pr) (h0 : P (Stop, 0)) :
    ∀ pr ∈ (smartDelay e ms st).2.log, P pr :=
  trans_sdAux e ms ms 0 st (by omega) hst h0

/-- With the overshoot flag latched, the MICRO-zone loop only commands
stops or the opposite direction `cmdOpp`, whatever the error signs. -/
theorem trans_micro {P : ℤ × ℤ → Prop} (e : Env) (c : RotCfg)
    (h0 : P (Stop, 0)) (hopp : ∀ s, P (c.cmdOpp, s)) :
    ∀ n st, (∀ pr ∈ st.log, P pr) → ∀ pr ∈ (microLoop e c true n st).2.log, P pr := by
  intro n
  induction n with
  | zero =>
    intro st hst
    exact hst
  | succ i ih =>
    intro st hst
    simp only [microLoop]
    repeat' split
    all_goals
      repeat' first
        | exact hst
        | exact h0
        | exact hopp _
        | apply trans_ssn
        | apply trans_sd
        | apply trans_motor
        | apply ih

/-- Once the error sign has flipped from `sign0` with magnitude above the
overshoot threshold — or the flag was already latched — every continuing
iteration carries the `overshot` flag as `true` (the flag is never
cleared within an invocation). -/
theorem rotateStep_latch (e : Env) (c : RotCfg) (ls ls' : LoopSt)
    (h : rotateStep e c ls = .inr ls')
    (hcond : ls.overshot = true ∨
      ((if 0 ≤ norm180 (c.target - e.hdg ls.st.sIdx) then (1 : ℤ) else -1) ≠ c.sign0 ∧
        OVERSHOOT_DEG < |norm180 (c.target - e.hdg ls.st.sIdx)|)) :
    ls'.overshot = true := by
  simp only [rotateStep] at h
  by_cases h1 : (shouldStopNow e ls.st).1 = true
  · rw [if_pos h1] at h
    exact Sum.noConfusion h
  · rw [if_neg h1] at h
    revert hcond
    revert h
    generalize norm180 (c.target - e.hdg ls.st.sIdx) = err
    generalize (if (0 : ℚ) ≤ err then (1 : ℤ) else -1) = sg
    intro h hcond
    have hov2 : (if ls.overshot = false ∧ sg ≠ c.sign0 ∧ OVERSHOOT_DEG < |err| then true
        else ls.overshot) = true ∨ ls.overshot = true := by
      rcases hcond with hc | ⟨hsgn, hdeg⟩
      · exact Or.inr hc
      · left
        by_cases hovF : ls.overshot = false
        · rw [if_pos ⟨hovF, hsgn, hdeg⟩]
        · rw [if_neg (fun hcontra => hovF hcontra.1)]
          exact bool_ne_false hovF
    have hov3 : (if ls.overshot = false ∧ sg ≠ c.sign0 ∧ OVERSHOOT_DEG < |err| then true
        else ls.overshot) = true := by
      rcases hov2 with hc | hc
      · exact hc
      · split
        · rfl
        · exact hc
    rw [hov3] at h
    have hmono : ls.overshot = true → ls'.overshot = true → True := fun _ _ => trivial
    rcases hcond with hc | hcond2
    · repeat' split at h
      all_goals first
        | exact Sum.noConfusion h
        | (injection h with h2; rw [← h2]; exact hc)
        | (injection h with h2; rw [← h2])
    · have hgt : ¬|err| ≤ ANGLE_TOL := by
        simp only [ANGLE_TOL]
        simp only [OVERSHOOT_DEG] at hcond2
        linarith [hcond2.2]
      rw [if_neg hgt] at h
      repeat' split at h
      all_goals first
        | exact Sum.noConfusion h
        | (injection h with h2; rw [← h2])

/-- With the overshoot flag latched (or being latched by this sample),
every actuator command issued during the iteration — in every zone,
including the micro-pulse zone — is either a full stop or the opposite
direction `cmdOpp`, regardless of the sign of the current error. -/
theorem rotateStep_cmds (e : Env) (c : RotCfg) (ls : LoopSt)
    (out : (RotExit × MState) ⊕ LoopSt) (h : rotateStep e c ls = out)
    (hcond : ls.overshot = true ∨
      ((if 0 ≤ norm180 (c.target - e.hdg ls.st.sIdx) then (1 : ℤ) else -1) ≠ c.sign0 ∧
        OVERSHOOT_DEG < |norm180 (c.target - e.hdg ls.st.sIdx)|)) :
    ∀ pr ∈ (stepSt out).log, pr ∈ ls.st.log ∨ pr.1 = Stop ∨ pr.1 = c.cmdOpp := by
  rw [← h]
  simp only [rotateStep]
  by_cases h1 : (shouldStopNow e ls.st).1 = true
  · rw [if_pos h1]
    exact trans_ssn (fun pr hpr => Or.inl hpr) (Or.inr (Or.inl rfl))
  · rw [if_neg h1]
    revert hcond
    generalize norm180 (c.target - e.hdg ls.st.sIdx) = err
    generalize (if (0 : ℚ) ≤ err then (1 : ℤ) else -1) = sg
    intro hcond
    have hov2 : (if ls.overshot = false ∧ sg ≠ c.sign0 ∧ OVERSHOOT_DEG < |err| then true
        else ls.overshot) = true := by
      rcases hcond with hc | ⟨hsgn, hdeg⟩
      · split
        · rfl
        · exact hc
      · by_cases hovF : ls.overshot = false
        · rw [if_pos ⟨hovF, hsgn, hdeg⟩]
        · rw [if_neg (fun hcontra => hovF hcontra.1)]
          exact bool_ne_false hovF
    rw [hov2]
    repeat' split
    all_goals simp only [stepSt]
    all_goals
      repeat' first
        | exact fun pr hpr => Or.inl hpr
        | exact Or.inr (Or.inl rfl)
        | exact Or.inr (Or.inr rfl)
        | exact fun s => Or.inr (Or.inr rfl)
        | apply trans_ssn
        | apply trans_sd
        | apply trans_motor
        | apply trans_micro

/-- Claim C2: (i) once a continuing iteration samples an error whose sign
differs from the initial sign `sign0` with magnitude above the 6-degree
overshoot threshold — or the `overshot` flag was already set — the flag
is `true` in the continuing state, so it is latched and never cleared for
the remainder of the invocation; (ii) while the flag is set (including
the iteration that sets it), every actuator command issued by the
iteration, in every zone including the micro-pulse zone and regardless of
the sign of the current error, is either a full stop or the opposite
direction `cmdOpp`. -/
theorem rotate_overshoot_latch :
    (∀ (e : Env) (c : RotCfg) (ls ls' : LoopSt),
      rotateStep e c ls = .inr ls' →
      (ls.overshot = true ∨
        ((if 0 ≤ norm180 (c.target - e.hdg ls.st.sIdx) then (1 : ℤ) else -1) ≠ c.sign0 ∧
          OVERSHOOT_DEG < |norm180 (c.target - e.hdg ls.st.sIdx)|)) →
      ls'.overshot = true) ∧
    (∀ (e : Env) (c : RotCfg) (ls : LoopSt) (out : (RotExit × MState) ⊕ LoopSt),
      rotateStep e c ls = out →
      (ls.overshot = true ∨
        ((if 0 ≤ norm180 (c.target - e.hdg ls.st.sIdx) then (1 : ℤ) else -1) ≠ c.sign0 ∧
          OVERSHOOT_DEG < |norm180 (c.target - e.hdg ls.st.sIdx)|)) →
      ∀ pr ∈ (stepSt out).log, pr ∈ ls.st.log ∨ pr.1 = Stop ∨ pr.1 = c.cmdOpp) :=
  ⟨rotateStep_latch, rotateStep_cmds⟩

/-- Witness for the C2 theorem at a concrete input: target 0, constant
heading 100 (error -100, sign flipped from `sign0 = 1`, far zone): the
continuing state has the flag latched and the only non-stop command
issued is `cmdOpp`. -/
theorem rotate_overshoot_latch_witness :
    ((⟨⟨10, 1, [(RotateLeft, ROT_FAST_PWM)], true⟩, 0, true⟩ : LoopSt).overshot = true) ∧
    (∀ pr ∈ (stepSt (.inr ⟨⟨10, 1, [(RotateLeft, ROT_FAST_PWM)], true⟩, 0, true⟩)).log,
      pr ∈ ([] : List (ℤ × ℤ)) ∨ pr.1 = Stop ∨
        pr.1 = (⟨0, RotateRight, RotateLeft, 1⟩ : RotCfg).cmdOpp) := by
  have hstep : rotateStep ⟨fun _ => 100, none⟩ ⟨0, RotateRight, RotateLeft, 1⟩
      ⟨⟨0, 0, [], false⟩, 5, false⟩ =
      .inr ⟨⟨10, 1, [(RotateLeft, ROT_FAST_PWM)], true⟩, 0, true⟩ := by
    have hsd := smartDelay_none ⟨fun _ => 100, none⟩ rfl
    norm_num [rotateStep, shouldStopNow, Env.stopAt, norm180_m100, hsd, pickCmd,
      Motor, RotateLeft, RotateRight, Stop, FAST_PWM, ROT_FAST_PWM, ANGLE_TOL,
      OVERSHOOT_DEG, TIMEOUT_MS, STABLE_CNT]
  have hcond : ((⟨⟨0, 0, [], false⟩, 5, false⟩ : LoopSt).overshot = true ∨
      ((if 0 ≤ norm180 ((⟨0, RotateRight, RotateLeft, 1⟩ : RotCfg).target -
          (⟨fun _ => 100, none⟩ : Env).hdg 0) then (1 : ℤ) else -1) ≠
        (⟨0, RotateRight, RotateLeft, 1⟩ : RotCfg).sign0 ∧
        OVERSHOOT_DEG <
          |norm180 ((⟨0, RotateRight, RotateLeft, 1⟩ : RotCfg).target -
            (⟨fun _ => 100, none⟩ : Env).hdg 0)|)) := by
    right
    constructor
    · show (if (0 : ℚ) ≤ norm180 (0 - 100) then (1 : ℤ) else -1) ≠ 1
      norm_num [norm180_m100]
    · show OVERSHOOT_DEG < |norm180 ((0 : ℚ) - 100)|
      norm_num [norm180_m100, OVERSHOOT_DEG]
  exact ⟨rotate_overshoot_latch.1 ⟨fun _ => 100, none⟩ ⟨0, RotateRight, RotateLeft, 1⟩
      ⟨⟨0, 0, [], false⟩, 5, false⟩ ⟨⟨10, 1, [(RotateLeft, ROT_FAST_PWM)], true⟩, 0, true⟩
      hstep hcond,
    rotate_overshoot_latch.2 ⟨fun _ => 100, none⟩ ⟨0, RotateRight, RotateLeft, 1⟩
      ⟨⟨0, 0, [], false⟩, 5, false⟩
      (.inr ⟨⟨10, 1, [(RotateLeft, ROT_FAST_PWM)], true⟩, 0, true⟩) hstep hcond⟩


end RobotR
namespace Prog

/-- If no table entry token-matches the line, the parse loop yields nothing. -/
theorem parseFind_none (l : List Char) :
    ∀ table : List CmdSpec, (∀ spec ∈ table, startsWithToken l spec.token = false) →
      parseFind l table = none := by
  intro table
  induction table with
  | nil => intro _; rfl
  | cons spec rest ih =>
    intro h
    rw [parseFind, if_neg (by rw [h spec (by simp)]; simp)]
    exact ih fun sp hsp => h sp (by simp [hsp])

/-- A successful token match implies the token is a prefix of the line. -/
theorem swt_prefix {l tok : List Char} (h : startsWithToken l tok = true) :
    tok.isPrefixOf l = true := by
  rw [startsWithToken, Bool.and_eq_true] at h
  exact h.1

/-- A nonempty prefix exposes the head of the line. -/
theorem isPrefixOf_single {c : Char} {tok l : List Char}
    (h : List.isPrefixOf (c :: tok) l = true) : ∃ t, l = c :: t := by
  cases l with
  | nil => simp [List.isPrefixOf] at h
  | cons b t =>
    simp [List.isPrefixOf] at h
    exact ⟨t, by rw [h.1]⟩

/-- A token cannot match a line whose first character differs. -/
theorem swt_head_ne {a b : Char} (tok t : List Char) (h : ¬a = b) :
    startsWithToken (b :: t) (a :: tok) = false := by
  rw [startsWithToken, Bool.and_eq_false_iff]
  left
  simp [List.isPrefixOf, h]

/-- The digit string "500" evaluates to 500. -/
theorem digitsToNat_500 : digitsToNat ['5', '0', '0'] 0 = 500 := by decide

/-- The argument text "500" parses to the rational 500. -/
theorem toFloatM_500 : toFloatM ['5', '0', '0'] = 500 := by
  rw [show toFloatM ['5', '0', '0'] =
      1 * ((digitsToNat ['5', '0', '0'] 0 : ℚ) + (digitsToNat [] 0 : ℚ) / 10 ^ (0 : ℕ))
    from rfl, digitsToNat_500]
  norm_num [digitsToNat]

/-- The line "F 500" parses to a forward command of duration 500 ms. -/
theorem parse_F500 :
    parse ['F', ' ', '5', '0', '0'] = some ⟨CmdId.forward, 500, 0, false, false⟩ := by
  rw [show parse ['F', ' ', '5', '0', '0'] =
      some ⟨CmdId.forward, ulongOf (toFloatM ['5', '0', '0']), 0, false, false⟩ from rfl,
    toFloatM_500]
  decide

/-- The line "???" parses to no command. -/
theorem parse_unknown_line : parse ['?', '?', '?'] = none := by decide

/-- Claim C6: (i) a line that is empty after trimming, or whose start
matches no entry of the command table, parses to no command; (ii) on such
a line the engine consumes the record, stays `running`, keeps no current
command and performs no actuation; (iii) concretely, the program
`["F 500", "???", "F 500"]` performs exactly two `forward` actions (each
later stopped) and still reaches `finishedAll`. -/
theorem parse_unknown_skipped :
    (∀ line : List Char,
      (trimC line = [] ∨ ∀ spec ∈ COMMAND_TABLE, startsWithToken (trimC line) spec.token = false) →
      parse line = none) ∧
    (∀ (line : List Char) rest (r : Runner) now log, parse line = none →
      r.running = true → r.current = none → r.file = some (line :: rest) →
      runnerUpdate r now log = ({ r with file := some rest }, log)) ∧
    (runN [0, 600, 1200, 1800, 2400, 3000]
        ⟨some ["F 500".toList, "???".toList, "F 500".toList], none, true, false⟩ [] =
      (⟨some [], none, false, true⟩,
        [RAct.stop, RAct.stop, RAct.forward, RAct.stop, RAct.forward])) := by
  refine ⟨?_, ?_, ?_⟩
  · intro line h
    rcases h with h | h
    · simp [parse, h]
    · rw [parse]
      by_cases hl : (trimC line).length = 0
      · rw [if_pos hl]
      · rw [if_neg hl, parseFind_none _ _ h]
  · intro line rest r now log hp hr hc hf
    obtain ⟨f, cur, run, fin⟩ := r
    simp only at hr hc hf
    subst hr; subst hc; subst hf
    simp [runnerUpdate, hp]
  · have s1 : runnerUpdate ⟨some ["F 500".toList, "???".toList, "F 500".toList], none, true, false⟩ 0 [] =
        (⟨some ["???".toList, "F 500".toList], some ⟨CmdId.forward, 500, 0, true, false⟩, true, false⟩, [RAct.forward]) := by
      simp [runnerUpdate, parse_F500, cmdStart, startAct]
    have s2 : runnerUpdate ⟨some ["???".toList, "F 500".toList], some ⟨CmdId.forward, 500, 0, true, false⟩, true, false⟩ 600 [RAct.forward] =
        (⟨some ["???".toList, "F 500".toList], none, true, false⟩, [RAct.stop, RAct.forward]) := by decide
    have s3 : runnerUpdate ⟨some ["???".toList, "F 500".toList], none, true, false⟩ 1200 [RAct.stop, RAct.forward] =
        (⟨some ["F 500".toList], none, true, false⟩, [RAct.stop, RAct.forward]) := by decide
    have s4 : runnerUpdate ⟨some ["F 500".toList], none, true, false⟩ 1800 [RAct.stop, RAct.forward] =
        (⟨some [], some ⟨CmdId.forward, 500, 1800, true, false⟩, true, false⟩, [RAct.forward, RAct.stop, RAct.forward]) := by
      simp [runnerUpdate, parse_F500, cmdStart, startAct]
    have s5 : runnerUpdate ⟨some [], some ⟨CmdId.forward, 500, 1800, true, false⟩, true, false⟩ 2400 [RAct.forward, RAct.stop, RAct.forward] =
        (⟨some [], none, true, false⟩, [RAct.stop, RAct.forward, RAct.stop, RAct.forward]) := by decide
    have s6 : runnerUpdate ⟨some [], none, true, false⟩ 3000 [RAct.stop, RAct.forward, RAct.stop, RAct.forward] =
        (⟨some [], none, false, true⟩, [RAct.stop, RAct.stop, RAct.forward, RAct.stop, RAct.forward]) := by decide
    simp only [runN, s1, s2, s3, s4, s5, s6]

/-- Witness for the C6 theorem at concrete inputs: the line `"???"` is
skipped by the parser and by the engine. -/
theorem parse_unknown_skipped_witness :
    parse "???".toList = none ∧
    runnerUpdate ⟨some ["???".toList], none, true, false⟩ 5 [] =
      ({ (⟨some ["???".toList], none, true, false⟩ : Runner) with file := some [] }, []) := by
  constructor
  · exact parse_unknown_skipped.1 ("???".toList) (Or.inr (by decide))
  · exact parse_unknown_skipped.2.1 ("???".toList) [] ⟨some ["???".toList], none, true, false⟩ 5 []
      (parse_unknown_skipped.1 ("???".toList) (Or.inr (by decide))) rfl rfl rfl

/-- Claim C5: (i) when a command is active, `update` only forwards one
poll to it: the program source is untouched and the engine stays
`Running` (at most one primitive exists at any time since the engine
holds a single optional current command); (ii) when no command is active
and the source is exhausted, the engine transitions to `finishedAll` and
stops all actuation; (iii) an empty or fully-skippable program reaches
`finishedAll` within `records + 1` update cycles. -/
theorem runner_single_primitive :
    (∀ (r : Runner) c now log, r.running = true → r.current = some c →
      (runnerUpdate r now log).1.file = r.file ∧
      (runnerUpdate r now log).1.running = true ∧
      (runnerUpdate r now log).1.finishedAll = r.finishedAll) ∧
    (∀ (r : Runner) now log, r.running = true → r.current = none →
      (r.file = none ∨ r.file = some []) →
      runnerUpdate r now log =
        ({ r with running := false, finishedAll := true }, RAct.stop :: log)) ∧
    (∀ lines, (∀ l ∈ lines, parse l = none) →
      ∀ times log, times.length = lines.length + 1 →
      (runN times ⟨some lines, none, true, false⟩ log).1.finishedAll = true ∧
      (runN times ⟨some lines, none, true, false⟩ log).1.running = false) := by
  refine ⟨?_, ?_, ?_⟩
  · intro r c now log hr hc
    obtain ⟨f, cur, run, fin⟩ := r
    simp only at hr hc
    subst hr; subst hc
    simp only [runnerUpdate]
    norm_num
    split <;> simp
  · intro r now log hr hc hf
    obtain ⟨f, cur, run, fin⟩ := r
    simp only at hr hc
    subst hr; subst hc
    rcases hf with hf | hf <;> (simp only at hf; subst hf; simp [runnerUpdate])
  · intro lines
    induction lines with
    | nil =>
      intro _ times log hlen
      cases times with
      | nil => simp at hlen
      | cons t ts =>
        cases ts with
        | nil => simp only [runN]; simp [runnerUpdate]
        | cons t2 ts2 => simp at hlen
    | cons line rest ih =>
      intro hnone times log hlen
      cases times with
      | nil => simp at hlen
      | cons t ts =>
        simp only [runN]
        have h1 : runnerUpdate ⟨some (line :: rest), none, true, false⟩ t log =
            (⟨some rest, none, true, false⟩, log) := by
          simp [runnerUpdate, hnone line (by simp)]
        rw [h1]
        exact ih (fun l hl => hnone l (by simp [hl])) ts log (by simpa using hlen)

/-- Witness for the C5 theorem at concrete inputs: a runner with an
active paint command, a runner with an exhausted source, and the empty
program. -/
theorem runner_single_primitive_witness :
    ((runnerUpdate ⟨none, some ⟨CmdId.paintOn, 0, 0, false, true⟩, true, false⟩ 3 []).1.file =
        (⟨none, some ⟨CmdId.paintOn, 0, 0, false, true⟩, true, false⟩ : Runner).file ∧
      (runnerUpdate ⟨none, some ⟨CmdId.paintOn, 0, 0, false, true⟩, true, false⟩ 3 []).1.running = true ∧
      (runnerUpdate ⟨none, some ⟨CmdId.paintOn, 0, 0, false, true⟩, true, false⟩ 3 []).1.finishedAll =
        (⟨none, some ⟨CmdId.paintOn, 0, 0, false, true⟩, true, false⟩ : Runner).finishedAll) ∧
    (runnerUpdate ⟨none, none, true, false⟩ 3 [] =
      ({ (⟨none, none, true, false⟩ : Runner) with running := false, finishedAll := true },
        RAct.stop :: [])) ∧
    ((runN [4] ⟨some [], none, true, false⟩ []).1.finishedAll = true ∧
      (runN [4] ⟨some [], none, true, false⟩ []).1.running = false) :=
  ⟨runner_single_primitive.1 ⟨none, some ⟨CmdId.paintOn, 0, 0, false, true⟩, true, false⟩
      ⟨CmdId.paintOn, 0, 0, false, true⟩ 3 [] rfl rfl,
    runner_single_primitive.2.1 ⟨none, none, true, false⟩ 3 [] rfl rfl (Or.inl rfl),
    runner_single_primitive.2.2 [] (by simp) [4] [] rfl⟩

/-- Claim C7: (i) a start edge while run-control is disabled is reported
blocked and changes nothing (the runner is not even polled); (ii) a start
edge while the runner is already running is reported "already running"
and the cycle behaves exactly like a cycle with no edge (no program is
opened, no new primitive started); (iii) only when enabled and not
running does the edge open the selected program and start the runner
before the poll. -/
theorem controller_start_arbitration :
    (∀ prog now (r : Runner) log,
      controllerUpdate true false prog now r log = (r, log, [Ev.blocked])) ∧
    (∀ prog now (r : Runner) log, r.running = true →
      controllerUpdate true true prog now r log =
        ((controllerUpdate false true prog now r log).1,
          (controllerUpdate false true prog now r log).2.1,
          Ev.already :: (controllerUpdate false true prog now r log).2.2)) ∧
    (∀ lines now (r : Runner) log, r.running = false →
      controllerUpdate true true (some lines) now r log =
        ((runnerUpdate ⟨some lines, none, true, false⟩ now (RAct.stop :: log)).1,
          (runnerUpdate ⟨some lines, none, true, false⟩ now (RAct.stop :: log)).2,
          Ev.started ::
            (if (runnerUpdate ⟨some lines, none, true, false⟩ now (RAct.stop :: log)).1.finishedAll
              then [Ev.finished] else []))) := by
  refine ⟨?_, ?_, ?_⟩
  · intro prog now r log
    simp [controllerUpdate]
  · intro prog now r log hr
    simp [controllerUpdate, hr]
  · intro lines now r log hr
    simp [controllerUpdate, hr, runnerStart, runnerStop]

/-- Witness for the C7 theorem at concrete inputs. -/
theorem controller_start_arbitration_witness :
    controllerUpdate true false none 0 ⟨none, none, false, false⟩ [] =
      (⟨none, none, false, false⟩, [], [Ev.blocked]) ∧
    controllerUpdate true true none 0 ⟨none, none, true, false⟩ [] =
      ((controllerUpdate false true none 0 ⟨none, none, true, false⟩ []).1,
        (controllerUpdate false true none 0 ⟨none, none, true, false⟩ []).2.1,
        Ev.already :: (controllerUpdate false true none 0 ⟨none, none, true, false⟩ []).2.2) ∧
    controllerUpdate true true (some []) 0 ⟨none, none, false, false⟩ [] =
      ((runnerUpdate ⟨some [], none, true, false⟩ 0 (RAct.stop :: [])).1,
        (runnerUpdate ⟨some [], none, true, false⟩ 0 (RAct.stop :: [])).2,
        Ev.started ::
          (if (runnerUpdate ⟨some [], none, true, false⟩ 0 (RAct.stop :: [])).1.finishedAll
            then [Ev.finished] else [])) :=
  ⟨controller_start_arbitration.1 none 0 ⟨none, none, false, false⟩ [],
    controller_start_arbitration.2.1 none 0 ⟨none, none, true, false⟩ [] rfl,
    controller_start_arbitration.2.2 [] 0 ⟨none, none, false, false⟩ [] rfl⟩

/-- Claim C8, counterexample: after an empty program transitions the
engine to `finishedAll` (first cycle, which reports `finished`), the next
enabled cycle — with the engine still in `finishedAll` and no new
transition — reports `finished` AGAIN, because `ProgramController`
re-tests the persistent `finishedAll` flag on every cycle.  This refutes
"subsequent update() cycles emit no further completion report". -/
theorem controller_finished_rereport_cex :
    ((controllerUpdate false true none 0 ⟨some [], none, true, false⟩ []).1.finishedAll = true ∧
      (controllerUpdate false true none 0 ⟨some [], none, true, false⟩ []).2.2 = [Ev.finished]) ∧
    (controllerUpdate false true none 1
        (controllerUpdate false true none 0 ⟨some [], none, true, false⟩ []).1
        (controllerUpdate false true none 0 ⟨some [], none, true, false⟩ []).2.1).2.2 =
      [Ev.finished] := by
  decide

/-- Claim C8 (amended): the supervisor emits the completion report on
EVERY enabled update cycle in which the engine is in `finishedAll` after
the poll — the transition cycle and every later cycle alike — not
exactly once. -/
theorem controller_finished_every_cycle (prog : Option (List (List Char))) (now : ℕ)
    (r : Runner) (log : List RAct) (hf : r.finishedAll = true) (hr : r.running = false) :
    controllerUpdate false true prog now r log = (r, log, [Ev.finished]) := by
  simp [controllerUpdate, runnerUpdate, hr, hf]

/-- Witness for the amended C8 theorem at a concrete input. -/
theorem controller_finished_every_cycle_witness :
    controllerUpdate false true none 7 ⟨none, none, false, true⟩ [] =
      (⟨none, none, false, true⟩, [], [Ev.finished]) :=
  controller_finished_every_cycle none 7 ⟨none, none, false, true⟩ [] rfl rfl

/-- Claim C10: a line whose (trimmed) start matches an argument-taking
token (`F`, `B`, `WAIT`) but whose argument is missing or non-numeric
(i.e. `extractArgument` yields 0) is NOT skipped: the parser creates the
corresponding timed command with value 0, a zero-duration action that
issues its start actuation on `start()` and finishes (issuing a stop) on
its first poll. -/
theorem parse_missing_arg_zero :
    ∀ line : List Char,
      (startsWithToken (trimC line) ['F'] = true ∨
        startsWithToken (trimC line) ['B'] = true ∨
        startsWithToken (trimC line) ['W', 'A', 'I', 'T'] = true) →
      extractArgument (trimC line) = 0 →
      ∃ id, (id = CmdId.forward ∨ id = CmdId.backward ∨ id = CmdId.wait) ∧
        parse line = some (factoryCreate id 0) ∧
        (factoryCreate id 0).duration = 0 ∧
        ∀ now now' log log', now ≤ now' →
          cmdStart (factoryCreate id 0) now log =
            ({ factoryCreate id 0 with startTime := now, active := true }, startAct id :: log) ∧
          cmdUpdate { factoryCreate id 0 with startTime := now, active := true } now' log' =
            ({ factoryCreate id 0 with startTime := now, active := false }, RAct.stop :: log') ∧
          cmdFinished { factoryCreate id 0 with startTime := now, active := false } = true := by
  intro line htok harg
  rcases htok with hF | hB | hW
  · have hp := swt_prefix hF
    obtain ⟨t, ht⟩ := isPrefixOf_single hp
    refine ⟨.forward, Or.inl rfl, ?_, by decide, ?_⟩
    · rw [parse, if_neg (by rw [ht]; simp), COMMAND_TABLE, parseFind, if_pos hF]
      simp [harg]
    · intro now now' log log' hle
      exact ⟨by simp [cmdStart, factoryCreate, startAct],
        by simp [cmdUpdate, factoryCreate, ulongOf],
        by simp [cmdFinished, factoryCreate]⟩
  · have hp := swt_prefix hB
    obtain ⟨t, ht⟩ := isPrefixOf_single hp
    refine ⟨.backward, Or.inr (Or.inl rfl), ?_, by decide, ?_⟩
    · rw [parse, if_neg (by rw [ht]; simp), COMMAND_TABLE, parseFind,
        if_neg (by rw [ht, swt_head_ne [] t (by decide)]; simp),
        parseFind, if_pos hB]
      simp [harg]
    · intro now now' log log' hle
      exact ⟨by simp [cmdStart, factoryCreate, startAct],
        by simp [cmdUpdate, factoryCreate, ulongOf],
        by simp [cmdFinished, factoryCreate]⟩
  · have hp := swt_prefix hW
    obtain ⟨t, ht⟩ := isPrefixOf_single hp
    refine ⟨.wait, Or.inr (Or.inr rfl), ?_, by decide, ?_⟩
    · rw [parse, if_neg (by rw [ht]; simp), COMMAND_TABLE, parseFind,
        if_neg (by rw [ht, swt_head_ne [] t (by decide)]; simp),
        parseFind, if_neg (by rw [ht, swt_head_ne [] t (by decide)]; simp),
        parseFind, if_neg (by rw [ht, swt_head_ne [] t (by decide)]; simp),
        parseFind, if_neg (by rw [ht, swt_head_ne [] t (by decide)]; simp),
        parseFind, if_neg (by rw [ht, swt_head_ne ['a', 'i', 'n', 't', 'O', 'N'] t (by decide)]; simp),
        parseFind, if_neg (by rw [ht, swt_head_ne ['a', 'i', 'n', 't', 'O', 'F', 'F'] t (by decide)]; simp),
        parseFind, if_pos hW]
      simp [harg]
    · intro now now' log log' hle
      exact ⟨by simp [cmdStart, factoryCreate, startAct],
        by simp [cmdUpdate, factoryCreate, ulongOf],
        by simp [cmdFinished, factoryCreate]⟩

/-- Witness for the C10 theorem at a concrete input: the bare line "F"
(argument missing entirely). -/
theorem parse_missing_arg_zero_witness :
    ∃ id, (id = CmdId.forward ∨ id = CmdId.backward ∨ id = CmdId.wait) ∧
      parse ['F'] = some (factoryCreate id 0) ∧
      (factoryCreate id 0).duration = 0 ∧
      ∀ now now' log log', now ≤ now' →
        cmdStart (factoryCreate id 0) now log =
          ({ factoryCreate id 0 with startTime := now, active := true }, startAct id :: log) ∧
        cmdUpdate { factoryCreate id 0 with startTime := now, active := true } now' log' =
          ({ factoryCreate id 0 with startTime := now, active := false }, RAct.stop :: log') ∧
        cmdFinished { factoryCreate id 0 with startTime := now, active := false } = true :=
  parse_missing_arg_zero ['F'] (Or.inl (by decide)) (by decide)



end Prog
